import Mathlib

/-!
Verification of the plan-based orchestration engine of `hired`
(`src/hired/resume_agent.py`): Plan/PlanStep validation and scheduling,
the `execute_plan` engine, `ResumeSession.chat`, `SessionState`,
`ConversationMemory` and the `SessionStore` persistence layer.

The Python module is shallowly embedded: Python dicts of structured values
become association lists over a JSON-like value type `Val` (floating point
and list values, which no verified property touches, are omitted from the
modeled value universe); wall-clock readings (`datetime.now()`) are passed
in as explicit `now : String` arguments; the external LLM/worker layer
(LangChain agent, OpenAI client) is an oracle (`WorkerEnv`) whose calls
return `Except String String` — `Except.error` models a raised Python
exception.  Recursion that Python expresses as unbounded loops or
unguarded recursion carries explicit fuel, with the fuel bounds justified
in the proofs.
-/

namespace Hired

/-- JSON-like structured values stored in session state buckets and turn
metadata.  Models the Python values handled by `SessionState`. -/
inductive Val where
  | str (s : String)
  | int (n : Int)
  | bool (b : Bool)
  | null
  | dict (entries : List (String × Val))
deriving Repr

/-- Look a key up in an association list (Python `dict[key]` /
`dict.get(key)`), returning the first binding. -/
def lookupV (l : List (String × Val)) (k : String) : Option Val :=
  match l with
  | [] => none
  | (k', v) :: rest => if k' = k then some v else lookupV rest k

/-- Python `d[k] = v` on an insertion-ordered dict: overwrite in place if
the key exists, otherwise append at the end. -/
def pyDictInsert {α : Type} (l : List (String × α)) (k : String) (v : α) :
    List (String × α) :=
  match l with
  | [] => [(k, v)]
  | (k', v') :: rest =>
      if k' = k then (k, v) :: rest else (k', v') :: pyDictInsert rest k v

/-- Python `d.update(other)` where `other` is a dict: merge key by key. -/
def pyDictMerge (d : List (String × Val)) (m : List (String × Val)) :
    List (String × Val) :=
  m.foldl (fun acc kv => pyDictInsert acc kv.1 kv.2) d

/-- `dict.update(v)`: merges when the argument is a mapping; in the
modeled value universe (no pair-sequences) every non-mapping argument
raises `TypeError`/`ValueError` in Python, modeled as `Except.error`. -/
def pyDictUpdate (d : List (String × Val)) (v : Val) :
    Except String (List (String × Val)) :=
  match v with
  | .dict m => .ok (pyDictMerge d m)
  | _ => .error "TypeError: dict.update requires a mapping"

/-- Session operation mode (`OperationMode`). -/
inductive OperationMode where
  | manual
  | auto
deriving Repr

/-- `OperationMode.value` — the persisted string form of the enum. -/
def OperationMode.value : OperationMode → String
  | .manual => "manual"
  | .auto => "auto"

/-- One conversation turn (`Turn` dataclass): role, content, timestamp
and free-form metadata. -/
structure Turn where
  role : String
  content : String
  timestamp : String
  metadata : List (String × Val)
deriving Repr

/-- Immutable snapshot of session state (`SessionSnapshot` dataclass). -/
structure SessionSnapshot where
  turn_count : Nat
  data : List (String × Val)
  mode : String
  timestamp : String
deriving Repr

/-- Conversation history with a bounded recent-window view
(`ConversationMemory`): the `_turns` list and `_max_recent_turns`. -/
structure ConversationMemory where
  turns : List Turn
  max_recent_turns : Nat
deriving Repr

/-- `ConversationMemory.add_turn`: append a turn. -/
def ConversationMemory.add_turn (mem : ConversationMemory) (role content : String)
    (now : String) (metadata : List (String × Val)) : ConversationMemory :=
  { mem with turns := mem.turns ++ [⟨role, content, now, metadata⟩] }

/-- `ConversationMemory.get_recent_turns(n)`: `n = n or max_recent_turns`
(a falsy `n` — `None` or `0` — falls back to the default window), then the
Python slice `_turns[-n:]`, which is the whole list when `n = 0`. -/
def ConversationMemory.get_recent_turns (mem : ConversationMemory)
    (n : Option Nat) : List Turn :=
  let k := match n with
    | none => mem.max_recent_turns
    | some m => if m = 0 then mem.max_recent_turns else m
  if k = 0 then mem.turns else mem.turns.drop (mem.turns.length - k)

/-- The initial `SessionState._data`: seven named buckets, each an empty
dict. -/
def sessionStateInit : List (String × Val) :=
  [("candidate", .dict []), ("job", .dict []), ("extracted_entities", .dict []),
   ("expansions", .dict []), ("distillations", .dict []), ("drafts", .dict []),
   ("searches", .dict [])]

/-- One iteration of `SessionState.update`: if the key exists and the
existing value is a dict, `dict.update` is attempted on it (which raises
for a non-mapping incoming value); otherwise the bucket is replaced (or
created) with the incoming value. -/
def sessionStateUpdateOne (data : List (String × Val)) (k : String) (v : Val) :
    Except String (List (String × Val)) :=
  match lookupV data k with
  | some (.dict d) => do
      let d' ← pyDictUpdate d v
      pure (pyDictInsert data k (.dict d'))
  | _ => .ok (pyDictInsert data k v)

/-- `SessionState.update(updates)`: fold `sessionStateUpdateOne` over the
items of the updates mapping in order; a raised exception aborts. -/
def sessionStateUpdate (data : List (String × Val))
    (updates : List (String × Val)) : Except String (List (String × Val)) :=
  match updates with
  | [] => .ok data
  | (k, v) :: rest => do
      let d' ← sessionStateUpdateOne data k v
      sessionStateUpdate d' rest

/-- `SessionState.snapshot()`: a deep copy via a JSON round-trip.  On the
modeled (pure, JSON-representable) values this is the identity. -/
def sessionStateSnapshot (data : List (String × Val)) : List (String × Val) :=
  data

/-- A single step in an execution plan (`PlanStep` dataclass).  The
`estimated_tokens` field, which nothing reads, is omitted. -/
structure PlanStep where
  id : String
  action : String
  description : String
  params : List (String × Val)
  dependencies : List String
deriving Repr

/-- `PlanStep.can_execute(completed_steps)`: all dependencies are in the
completed set. -/
def PlanStep.can_execute (s : PlanStep) (completed_steps : Finset String) : Bool :=
  s.dependencies.all (fun dep_id => decide (dep_id ∈ completed_steps))

/-- Structured execution plan (`Plan` dataclass).  The `created_at`
timestamp, which no verified operation reads, is omitted. -/
structure Plan where
  steps : List PlanStep
  rationale : String
deriving Repr

/-- The dependency graph of `Plan.validate`:
`graph = {step.id: list(step.dependencies) for step in self.steps}`,
built with Python dict semantics (a duplicated id keeps its first
position but its last value). -/
def graphOf (p : Plan) : List (String × List String) :=
  p.steps.foldl (fun g s => pyDictInsert g s.id s.dependencies) []

/-- `graph.get(node, [])`. -/
def graphGet (g : List (String × List String)) (k : String) : List String :=
  match g.find? (fun kv => decide (kv.1 = k)) with
  | some kv => kv.2
  | none => []

/-- State of the three-coloring depth-first traversal: the `visiting`
(grey) stack and the `visited` (black) set of `Plan.validate`. -/
structure DfsSt where
  visiting : List String
  visited : List String
deriving Repr

/-- The `for nbr in graph.get(node, [])` loop inside `dfs`: run `visit` on
each neighbour in order, short-circuiting as soon as a cycle is found. -/
def dfsNbrsAux (visit : String → DfsSt → Bool × DfsSt) :
    List String → DfsSt → Bool × DfsSt
  | [], st => (false, st)
  | n :: ns, st =>
      let r := visit n st
      if r.1 then (true, r.2) else dfsNbrsAux visit ns r.2

/-- The recursive `dfs(node)` of `Plan.validate`: a visited node is
ignored, a node already on the grey stack is a cycle, otherwise the node
is pushed, its neighbours are explored, and on success it is moved from
grey to black.  Python's recursion is unbounded but its depth is at most
the number of distinct node names (each nested call pushes a new node on
the grey stack), so the callers pass fuel exceeding that bound and the
out-of-fuel branch is unreachable there (its `true` result is
conservative: it can only ever add a spurious cycle error, and the
soundness theorem rules that out for adequate fuel). -/
def dfsVisit (g : List (String × List String)) :
    Nat → String → DfsSt → Bool × DfsSt
  | 0, _, st => (true, st)
  | fuel + 1, node, st =>
      if node ∈ st.visited then (false, st)
      else if node ∈ st.visiting then (true, st)
      else
        let st1 : DfsSt := { st with visiting := node :: st.visiting }
        let r := dfsNbrsAux (dfsVisit g fuel) (graphGet g node) st1
        if r.1 then (true, r.2)
        else (false, { visiting := r.2.visiting.erase node,
                       visited := node :: r.2.visited })

/-- The `for node in graph: if dfs(node): ... break` loop of
`Plan.validate`: return the first graph key from which the traversal
finds a cycle, sharing the grey/black state across calls. -/
def findCycleNode (g : List (String × List String)) (fuel : Nat) :
    List String → DfsSt → Option String
  | [], _ => none
  | k :: ks, st =>
      let r := dfsVisit g fuel k st
      if r.1 then some k else findCycleNode g fuel ks r.2

/-- Every node name occurring in a plan (step ids and dependency ids);
bounds the depth of the DFS grey stack. -/
def nodeUniverse (p : Plan) : List String :=
  p.steps.map (·.id) ++ p.steps.flatMap (·.dependencies)

/-- The "depends on non-existent step" message of `Plan.validate`. -/
def danglingMsg (sid dep : String) : String :=
  "Step \x27" ++ sid ++ "\x27 depends on non-existent step \x27" ++ dep ++ "\x27"

/-- The "depends on itself" message of `Plan.validate`. -/
def selfDepMsg (sid : String) : String :=
  "Step \x27" ++ sid ++ "\x27 depends on itself"

/-- The "dependency cycle" message of `Plan.validate`. -/
def cycleMsg (node : String) : String :=
  "Dependency cycle detected involving step \x27" ++ node ++ "\x27"

/-- `Plan.validate()`: per step, dangling-dependency errors then a
self-dependency error; finally a single cycle error (for the first graph
key from which the DFS finds a cycle, if any). -/
def Plan.validate (p : Plan) : List String :=
  let step_ids := p.steps.map (·.id)
  let stepErrs := p.steps.flatMap (fun s =>
    (s.dependencies.filter (fun dep_id => decide (dep_id ∉ step_ids))).map
        (fun dep_id => danglingMsg s.id dep_id)
    ++ (if s.id ∈ s.dependencies then [selfDepMsg s.id] else []))
  let g := graphOf p
  let cycleErrs :=
    match findCycleNode g ((nodeUniverse p).length + 1) (g.map (·.1)) ⟨[], []⟩ with
    | some node => [cycleMsg node]
    | none => []
  stepErrs ++ cycleErrs

/-- `Plan.get_executable_steps(completed_steps)`: in original plan order,
the steps not yet completed whose dependencies are all completed. -/
def Plan.get_executable_steps (p : Plan) (completed_steps : Finset String) :
    List PlanStep :=
  p.steps.filter (fun s =>
    decide (s.id ∉ completed_steps) && s.can_execute completed_steps)

/-- The persisted session record (`session_data` in
`SessionStore.save_session`).  `mode` and `created_at` are stored by
Python as `mode.value` / ISO strings and parsed back on load; the
encode/decode pair is the identity on the enum, so the field keeps the
enum type here.  `llm_config`, which claim-relevant code never compares,
is omitted. -/
structure SessionRecord where
  session_id : String
  job_info : String
  candidate_info : String
  mode : OperationMode
  history : List Turn
  state : List (String × Val)
  snapshots : List SessionSnapshot
  created_at : String
  updated_at : String
  name : Option String
deriving Repr

/-- The session-store directory: the `.pkl` files (opaque pickle form,
read back by `load_session`) and the `.json` mirror (human-readable
form), both keyed by session id. -/
structure StoreFS where
  pkl : List (String × SessionRecord)
  jsonm : List (String × SessionRecord)
deriving Repr

/-- An empty store directory. -/
def StoreFS.empty : StoreFS := ⟨[], []⟩

/-- The stateful conversation controller (`ResumeSession`).  Worker-agent
handles and the model registry, which only forward configuration to the
external LLM layer, are folded into the `WorkerEnv` oracle; the
`_store` handle is modeled by carrying the store directory contents. -/
structure ResumeSession where
  job_info : String
  candidate_info : String
  mode : OperationMode
  memory : ConversationMemory
  state : List (String × Val)
  snapshots : List SessionSnapshot
  session_id : String
  created_at : String
  auto_persist : Bool
  name : Option String
  system_prompt : String
  storeFS : StoreFS
deriving Repr

/-- `ResumeSession._default_system_prompt()`. -/
def defaultSystemPrompt : String :=
  "You are an expert resume consultant and career advisor.\n\n" ++
  "Your role is to help candidates create compelling, tailored resumes by:\n" ++
  "- Analyzing job descriptions to extract key requirements\n" ++
  "- Expanding brief bullets into detailed achievement descriptions\n" ++
  "- Distilling verbose text into concise, impactful statements\n" ++
  "- Matching candidate experience to job requirements\n" ++
  "- Researching companies and providing relevant context\n" ++
  "- Generating well-structured, ATS-friendly resume content\n\n" ++
  "You have access to specialized tools for expansion, distillation, \n" ++
  "semantic matching, and web search. Use these tools strategically to\n" ++
  "produce high-quality results."

/-- `SessionStore.save_session(session)`: build the serializable record
and write it under `{session_id}.pkl` and, in parallel, `{session_id}.json`
(overwriting any prior record for the same id). -/
def saveSession (fs : StoreFS) (s : ResumeSession) (now : String) : StoreFS :=
  let record : SessionRecord :=
    { session_id := s.session_id
      job_info := s.job_info
      candidate_info := s.candidate_info
      mode := s.mode
      history := s.memory.turns
      state := sessionStateSnapshot s.state
      snapshots := s.snapshots
      created_at := s.created_at
      updated_at := now
      name := s.name }
  { pkl := pyDictInsert fs.pkl s.session_id record
    jsonm := pyDictInsert fs.jsonm s.session_id record }

/-- Association-list lookup for store files. -/
def fsLookup {α : Type} (l : List (String × α)) (k : String) : Option α :=
  match l with
  | [] => none
  | (k', v) :: rest => if k' = k then some v else fsLookup rest k

/-- `SessionStore.load_session(session_id)`: `None` when the `.pkl` file
is missing; otherwise reconstruct a session from the record.  The
constructor runs with `auto_persist=False`, default `max_recent_turns`
and the default system prompt; then state, history, id, creation time and
name are restored.  The recorded `snapshots` are never read back: the
reconstructed session keeps the constructor's empty snapshot list. -/
def loadSession (fs : StoreFS) (session_id : String) : Option ResumeSession :=
  match fsLookup fs.pkl session_id with
  | none => none
  | some record => some
      { job_info := record.job_info
        candidate_info := record.candidate_info
        mode := record.mode
        memory := { turns := record.history, max_recent_turns := 10 }
        state := record.state
        snapshots := []
        session_id := record.session_id
        created_at := record.created_at
        auto_persist := false
        name := record.name
        system_prompt := defaultSystemPrompt
        storeFS := StoreFS.empty }

/-- Remove a file from a directory listing (`Path.unlink`). -/
def fsErase {α : Type} (l : List (String × α)) (k : String) : List (String × α) :=
  match l with
  | [] => []
  | (k', v) :: rest => if k' = k then rest else (k', v) :: fsErase rest k

/-- `SessionStore.delete_session(session_id)`: unlink the `.pkl` and
`.json` files if present; report whether anything was deleted. -/
def deleteSession (fs : StoreFS) (session_id : String) : Bool × StoreFS :=
  let hadPkl := (fsLookup fs.pkl session_id).isSome
  let hadJson := (fsLookup fs.jsonm session_id).isSome
  (hadPkl || hadJson,
   { pkl := fsErase fs.pkl session_id, jsonm := fsErase fs.jsonm session_id })

/-- `SessionStore.__delitem__`: delegate to `delete_session` and raise
`KeyError` (modeled as `Except.error`) when nothing was deleted. -/
def storeDelItem (fs : StoreFS) (key : String) : Except String StoreFS :=
  let r := deleteSession fs key
  if r.1 then .ok r.2 else .error ("KeyError: " ++ key)

/-- The external LLM/worker layer as an oracle.  `langchain = some invoke`
models an importable LangChain stack: `invoke` stands for building the
agent and calling `agent_executor.invoke` (it may raise — note the source
wraps only the imports in try/except) and yields the optional `"output"`
entry of the result dict.  `langchain = none` models the `ImportError`
path, where `_fallback_processing` issues a direct OpenAI call whose
whole body (import, client construction, API call) is the `openaiCall`
oracle. -/
structure WorkerEnv where
  langchain : Option (String → Except String (Option String))
  openaiCall : List (String × String) → Except String String

/-- The message list built by `ResumeSession._fallback_processing`:
system prompt, job info, candidate info, the recent turns, then the
current instruction. -/
def fallbackMessages (s : ResumeSession) (instruction : String) :
    List (String × String) :=
  [("system", s.system_prompt),
   ("system", "Job Info:\n" ++ s.job_info),
   ("system", "Candidate Info:\n" ++ s.candidate_info)]
  ++ (s.memory.get_recent_turns none).map (fun t => (t.role, t.content))
  ++ [("user", instruction)]

/-- `ResumeSession._fallback_processing(instruction)`: the whole body is
wrapped in `try/except Exception`, so it never raises — a failure of the
OpenAI call (or its import) becomes a visible error string. -/
def fallbackProcessing (env : WorkerEnv) (s : ResumeSession)
    (instruction : String) : String :=
  match env.openaiCall (fallbackMessages s instruction) with
  | .ok content => content
  | .error e =>
      "Error: " ++ e ++
      "\n\nTo use AI agents, install: pip install langchain langchain-openai openai"

/-- `ResumeSession._process_with_supervisor(instruction)`: only the
LangChain imports are guarded (`except ImportError`); when LangChain is
available, an exception raised while building or invoking the agent
propagates to the caller. -/
def processWithSupervisor (env : WorkerEnv) (s : ResumeSession)
    (instruction : String) : Except String String :=
  match env.langchain with
  | none => .ok (fallbackProcessing env s instruction)
  | some invoke => do
      let out ← invoke instruction
      pure (out.getD "No response generated")

/-- `ResumeSession._create_snapshot()`: record turn count, a state
snapshot and the mode before processing. -/
def ResumeSession.createSnapshot (s : ResumeSession) (now : String) :
    ResumeSession :=
  { s with snapshots := s.snapshots ++
      [⟨s.memory.turns.length, sessionStateSnapshot s.state, s.mode.value, now⟩] }

/-- `ResumeSession.save()`: persist via the session store. -/
def ResumeSession.save (s : ResumeSession) (now : String) : ResumeSession :=
  { s with storeFS := saveSession s.storeFS s now }

/-- `ResumeSession.chat(user_message)`: append the user turn, capture a
snapshot, route to the supervisor; on success append the assistant turn
and auto-persist.  An exception from the supervisor path propagates (as
`Except.error`) with the session left in its mid-call state. -/
def ResumeSession.chat (env : WorkerEnv) (now : String) (s : ResumeSession)
    (user_message : String) : Except String String × ResumeSession :=
  let s1 := { s with memory := s.memory.add_turn "user" user_message now [] }
  let s2 := s1.createSnapshot now
  match processWithSupervisor env s2 user_message with
  | .error e => (.error e, s2)
  | .ok assistant_response =>
      let s3 := { s2 with
        memory := s2.memory.add_turn "assistant" assistant_response now [] }
      let s4 := if s3.auto_persist then s3.save now else s3
      (.ok assistant_response, s4)

/-- `ResumeSession.switch_mode(mode)`: set the mode, record a system turn
flagged `mode_change=True`, and auto-persist. -/
def ResumeSession.switch_mode (s : ResumeSession) (newMode : OperationMode)
    (now : String) : ResumeSession :=
  let s1 := { s with
    mode := newMode
    memory := s.memory.add_turn "system" ("Mode switched to " ++ newMode.value)
      now [("mode_change", .bool true)] }
  if s1.auto_persist then s1.save now else s1

/-- Python `str()` on a modeled value, for f-string interpolation (the
dict rendering is approximate; no verified property inspects it). -/
def pyStr : Val → String
  | .str s => s
  | .int n => toString n
  | .bool b => if b then "True" else "False"
  | .null => "None"
  | .dict _ => "\x7b...\x7d"

/-- `step.params.get(key, default)` rendered into an f-string. -/
def paramOr (params : List (String × Val)) (key dflt : String) : String :=
  match lookupV params key with
  | some v => pyStr v
  | none => dflt

/-- `ResumeExpertAgent._step_to_instruction(step)`: a fixed lookup table
keyed by action name with a generic fallback for unknown actions. -/
def stepToInstruction (step : PlanStep) : String :=
  if step.action = "analyze_job" then
    "Analyze the job description and extract key requirements, focusing on technical skills and experience needed."
  else if step.action = "search_company" then
    "Search for information about " ++ paramOr step.params "company_name" "the company" ++
    " and provide relevant context for a job candidate."
  else if step.action = "match_skills" then
    "Identify and list the strongest matches between the candidate\x27s experience and the job requirements."
  else if step.action = "expand_achievements" then
    "Expand the candidate\x27s top " ++ paramOr step.params "count" "3" ++
    " achievements into detailed bullet points with metrics and impact."
  else if step.action = "generate_draft" then
    "Generate a complete " ++ paramOr step.params "length" "" ++ " resume in " ++
    paramOr step.params "format" "markdown" ++ " format."
  else if step.action = "critique" then
    "Critique the current resume draft and identify specific areas for improvement."
  else if step.action = "refine" then
    "Refine the resume based on the previous critique, implementing the suggested improvements."
  else
    "Perform action: " ++ step.description

/-- Python `str.lower()` on the approval response, modeled
character-wise (structurally, so that it computes in proofs; Lean's
built-in `String.toLower` is well-founded recursion). -/
def pyLower (s : String) : String := ⟨s.data.map Char.toLower⟩

/-- The per-step result record of `execute_plan`
(`{action, description, response, timestamp}`). -/
structure StepResult where
  action : String
  description : String
  response : String
  timestamp : String
deriving Repr

/-- The result dict of `execute_plan`, one constructor per returned
shape: validation failure (`success=False` with `errors` and an empty
completed list), deadlock (`success=False` with an `error` message and
the partial completed set and results), and normal/declined exit
(`success=True` with completed set and results).  Python returns the
completed ids as `list(set)` in unspecified order, modeled by keeping
the `Finset`. -/
inductive ExecResult where
  | invalid (errors : List String) (completed : Finset String)
  | deadlock (error : String) (completed : Finset String)
      (results : List (String × StepResult))
  | success (completed : Finset String) (results : List (String × StepResult))

/-- The `while len(completed_steps) < len(plan.steps)` loop of
`execute_plan`.  `callback` is the approval oracle (the registered
`approval_callback`, or the interactive `input()` prompt — both produce
a string).  Each iteration either returns, or adds one id not yet in
`completed` (on skip or successful execution), so the loop runs at most
`plan.steps.length` iterations and callers pass fuel above that bound;
the out-of-fuel branch mirrors the loop-guard exit and is unreachable
for adequate fuel.  An exception raised by `session.chat` escapes the
loop as `Except.error` together with the session as already mutated. -/
def execLoop (env : WorkerEnv) (now : String) (p : Plan) (interactive : Bool)
    (callback : PlanStep → String) :
    Nat → Finset String → List (String × StepResult) → ResumeSession →
    Except String ExecResult × ResumeSession
  | 0, completed, results, s => (.ok (.success completed results), s)
  | fuel + 1, completed, results, s =>
    if completed.card < p.steps.length then
      match p.get_executable_steps completed with
      | [] =>
          (.ok (.deadlock "Plan deadlock: no executable steps remaining"
            completed results), s)
      | step :: _ =>
          let response := if interactive then pyLower (callback step) else ""
          if interactive ∧ response = "n" then
            -- `break` falls through to the success return
            (.ok (.success completed results), s)
          else if interactive ∧ response = "skip" then
            execLoop env now p interactive callback fuel
              (insert step.id completed) results s
          else
            let instruction := stepToInstruction step
            let r := s.chat env now instruction
            match r.1 with
            | .error e => (.error e, r.2)
            | .ok resp =>
                execLoop env now p interactive callback fuel
                  (insert step.id completed)
                  (results ++ [(step.id,
                    ⟨step.action, step.description, resp, now⟩)])
                  r.2
    else (.ok (.success completed results), s)

/-- `ResumeExpertAgent.execute_plan(session, plan, interactive,
approval_callback)`: validate (failing immediately, before touching the
session, when invalid); otherwise remember the original mode, switch to
autonomous mode, run the loop, and restore the original mode on the
`finally` path — also when an exception escapes the loop, in which case
the exception is re-raised after the restore. -/
def executePlan (env : WorkerEnv) (now : String) (s : ResumeSession) (p : Plan)
    (interactive : Bool) (callback : PlanStep → String) :
    Except String ExecResult × ResumeSession :=
  let errors := p.validate
  if errors ≠ [] then
    (.ok (.invalid errors ∅), s)
  else
    let original_mode := s.mode
    let s1 := s.switch_mode .auto now
    let r := execLoop env now p interactive callback (p.steps.length + 1) ∅ [] s1
    (r.1, r.2.switch_mode original_mode now)

/-- Whether a turn is one of the system turns recorded by `switch_mode`
(its metadata carries `mode_change=True`). -/
def Turn.isModeChange (t : Turn) : Bool :=
  match lookupV t.metadata "mode_change" with
  | some (.bool true) => true
  | _ => false

/-- Number of mode-transition system turns in a history. -/
def countModeChange (ts : List Turn) : Nat :=
  (ts.filter Turn.isModeChange).length

/-- The dependency relation declared by a plan: step `a` depends directly
on `b`. -/
def DepEdge (p : Plan) (a b : String) : Prop :=
  ∃ s, s ∈ p.steps ∧ s.id = a ∧ b ∈ s.dependencies

/-- Nonempty dependency paths: the transitive closure of `DepEdge`.  A
cycle through `a` is `DepPath p a a`. -/
def DepPath (p : Plan) : String → String → Prop :=
  Relation.TransGen (DepEdge p)

/-- The edge relation of the dict graph handed to the validator's DFS. -/
def gEdge (g : List (String × List String)) (a b : String) : Prop :=
  b ∈ graphGet g a

/-- Completed-id sets an executor can reach by starting from the empty
set and repeatedly marking steps returned by `get_executable_steps`
completed. -/
inductive ReachableCompleted (p : Plan) : Finset String → Prop
  | init : ReachableCompleted p ∅
  | mark {c : Finset String} {s : PlanStep} :
      ReachableCompleted p c → s ∈ p.get_executable_steps c →
      ReachableCompleted p (insert s.id c)

/-- The ids of a plan's steps, as a set. -/
def stepIdsF (p : Plan) : Finset String :=
  (p.steps.map (·.id)).toFinset

/-- One round of the reference driver loop: mark every currently
executable step completed. -/
def completeAll (p : Plan) (c : Finset String) : Finset String :=
  c ∪ ((p.get_executable_steps c).map (·.id)).toFinset

/-- Sample session used by concrete counterexamples and witnesses. -/
def sampleSession : ResumeSession :=
  { job_info := "Senior ML Engineer at TechCo"
    candidate_info := "5 years Python, ML experience"
    mode := .manual
    memory := ⟨[⟨"user", "hello", "t0", []⟩], 10⟩
    state := sessionStateInit
    snapshots := [⟨1, sessionStateInit, "manual", "t0"⟩]
    session_id := "abc123"
    created_at := "t0"
    auto_persist := false
    name := none
    system_prompt := defaultSystemPrompt
    storeFS := StoreFS.empty }

/-- Oracle with an importable LangChain stack whose agent invocation
raises. -/
def envLangchainBoom : WorkerEnv :=
  { langchain := some (fun _ => .error "boom"), openaiCall := fun _ => .error "x" }

/-- Oracle without LangChain whose direct OpenAI call succeeds. -/
def envFallbackOk : WorkerEnv :=
  { langchain := none, openaiCall := fun _ => .ok "resp" }

/-- One-step plan used by concrete executions. -/
def plan1 : Plan :=
  { steps := [⟨"s1", "generate_draft", "Generate resume draft", [], []⟩]
    rationale := "r" }

/-- Two-step cyclic plan `[A (deps: B), B (deps: A)]`. -/
def planCyc : Plan :=
  { steps := [⟨"A", "a", "dA", [], ["B"]⟩, ⟨"B", "b", "dB", [], ["A"]⟩]
    rationale := "r" }

/-- One-step plan with a dangling dependency (fails validation, and its
frontier is empty while its step is uncompleted). -/
def planDangling : Plan :=
  { steps := [⟨"s1", "a", "d", [], ["zz"]⟩], rationale := "r" }

/-- No cycle is reachable from `x` in the graph `g` (including via the
empty path: `x` itself is on no cycle).  The invariant certified for
every black (visited) node of the validator's DFS. -/
def CleanFrom (g : List (String × List String)) (x : String) : Prop :=
  ∀ m, Relation.ReflTransGen (gEdge g) x m → ¬ Relation.TransGen (gEdge g) m m

-- ===========================================================================
-- Theorems
-- ===========================================================================

theorem nodup_length_le {l u : List String} (hn : l.Nodup)
    (hs : ∀ x ∈ l, x ∈ u) : l.length ≤ u.length := by
  calc l.length = l.toFinset.card := (List.toFinset_card_of_nodup hn).symm
  _ ≤ u.toFinset.card := Finset.card_le_card
      (fun x hx => List.mem_toFinset.mpr (hs x (List.mem_toFinset.mp hx)))
  _ ≤ u.length := List.toFinset_card_le u

theorem chain_stack_path (g : List (String × List String)) :
    ∀ (l : List String) (x y : String),
      List.Chain' (fun a b => a ∈ graphGet g b) (x :: l) → y ∈ l →
      Relation.TransGen (gEdge g) y x := by
  intro l
  induction l with
  | nil => intro x y _ hy; cases hy
  | cons w t ih =>
      intro x y hch hy
      have h1 : x ∈ graphGet g w := (List.chain'_cons.mp hch).1
      have h2 := (List.chain'_cons.mp hch).2
      rcases List.mem_cons.mp hy with h | h
      · subst h; exact Relation.TransGen.single h1
      · exact Relation.TransGen.tail (ih w y h2 h) h1

theorem dfsNbrs_sound (g : List (String × List String)) (U : List String)
    (hU : ∀ x y, y ∈ graphGet g x → y ∈ U) (f : Nat)
    (IH : ∀ (node : String) (st : DfsSt), node ∈ U → st.visiting.Nodup →
      (∀ v ∈ st.visiting, v ∈ U) →
      List.Chain' (fun a b => a ∈ graphGet g b) (node :: st.visiting) →
      U.length < f + st.visiting.length →
      (dfsVisit g f node st).1 = false ∧
      (dfsVisit g f node st).2.visiting = st.visiting) :
    ∀ (nbrs : List String) (node : String) (v0 : List String) (st : DfsSt),
      st.visiting = node :: v0 →
      (node :: v0).Nodup →
      (∀ v ∈ node :: v0, v ∈ U) →
      List.Chain' (fun a b => a ∈ graphGet g b) (node :: v0) →
      U.length < f + (node :: v0).length →
      (∀ n ∈ nbrs, n ∈ graphGet g node) →
      (dfsNbrsAux (dfsVisit g f) nbrs st).1 = false ∧
      (dfsNbrsAux (dfsVisit g f) nbrs st).2.visiting = node :: v0 := by
  intro nbrs
  induction nbrs with
  | nil =>
      intro node v0 st hst _ _ _ _ _
      simp [dfsNbrsAux, hst]
  | cons n ns ih =>
      intro node v0 st hst hnd hsub hch hf hnb
      have hnU : n ∈ U := hU node n (hnb n (List.mem_cons_self n ns))
      have hpre := IH n st hnU (hst ▸ hnd) (hst ▸ hsub)
        (by rw [hst]
            exact List.chain'_cons.mpr ⟨hnb n (List.mem_cons_self n ns), hch⟩)
        (by rw [hst]; exact hf)
      simp only [dfsNbrsAux]
      rw [hpre.1]
      simp only [if_false, Bool.false_eq_true]
      exact ih node v0 (dfsVisit g f n st).2 (hpre.2.trans hst) hnd hsub hch hf
        (fun m hm => hnb m (List.mem_cons_of_mem n hm))

theorem dfsVisit_sound (g : List (String × List String)) (U : List String)
    (hU : ∀ x y, y ∈ graphGet g x → y ∈ U)
    (hacyc : ∀ a, ¬ Relation.TransGen (gEdge g) a a) :
    ∀ (fuel : Nat) (node : String) (st : DfsSt),
      node ∈ U → st.visiting.Nodup → (∀ v ∈ st.visiting, v ∈ U) →
      List.Chain' (fun a b => a ∈ graphGet g b) (node :: st.visiting) →
      U.length < fuel + st.visiting.length →
      (dfsVisit g fuel node st).1 = false ∧
      (dfsVisit g fuel node st).2.visiting = st.visiting := by
  intro fuel
  induction fuel with
  | zero =>
      intro node st hnode hnd hsub hch hf
      exfalso
      have := nodup_length_le hnd hsub
      omega
  | succ f ihf =>
      intro node st hnode hnd hsub hch hf
      by_cases hvd : node ∈ st.visited
      · rw [dfsVisit]
        simp [hvd]
      · by_cases hvg : node ∈ st.visiting
        · exact absurd (chain_stack_path g st.visiting node node hch hvg)
            (hacyc node)
        · have hres := dfsNbrs_sound g U hU f ihf (graphGet g node) node
            st.visiting ⟨node :: st.visiting, st.visited⟩ rfl
            (List.nodup_cons.mpr ⟨hvg, hnd⟩)
            (fun v hv => (List.mem_cons.mp hv).elim (fun h => h ▸ hnode)
              (fun h => hsub v h))
            hch
            (by simp only [List.length_cons]; omega)
            (fun n hn => hn)
          rw [dfsVisit]
          simp only [hvd, hvg, if_false, ite_false]
          rw [hres.1]
          simp only [if_false, Bool.false_eq_true, ite_false]
          refine ⟨by trivial, ?_⟩
          rw [hres.2]
          exact List.erase_cons_head node st.visiting

theorem findCycleNode_none_of_acyclic (g : List (String × List String))
    (U : List String) (hU : ∀ x y, y ∈ graphGet g x → y ∈ U)
    (hacyc : ∀ a, ¬ Relation.TransGen (gEdge g) a a)
    (fuel : Nat) (hfuel : U.length < fuel) :
    ∀ (keys : List String) (st : DfsSt), (∀ k ∈ keys, k ∈ U) →
      st.visiting = [] → findCycleNode g fuel keys st = none := by
  intro keys
  induction keys with
  | nil => intro st _ _; rfl
  | cons k ks ih =>
      intro st hk hv
      have hres := dfsVisit_sound g U hU hacyc fuel k st
        (hk k (List.mem_cons_self k ks))
        (hv ▸ List.nodup_nil)
        (by rw [hv]; intro v hv'; cases hv')
        (by rw [hv]; exact List.chain'_singleton k)
        (by rw [hv]; simpa using hfuel)
      rw [findCycleNode]
      rw [hres.1]
      simp only [if_false, Bool.false_eq_true, ite_false]
      exact ih (dfsVisit g fuel k st).2
        (fun x hx => hk x (List.mem_cons_of_mem k hx))
        (hres.2.trans hv)

theorem fsLookup_pyDictInsert_self {α : Type} (l : List (String × α))
    (k : String) (v : α) : fsLookup (pyDictInsert l k v) k = some v := by
  induction l with
  | nil => simp [pyDictInsert, fsLookup]
  | cons hd tl ih =>
      by_cases h : hd.1 = k
      · simp [pyDictInsert, h, fsLookup]
      · simp [pyDictInsert, h, fsLookup, ih]

/-- C10: `get_recent_turns(0)` is the same as `get_recent_turns(None)` —
a falsy `n` falls back to the configured default window — so on a
nonempty history it is never the empty list, and (whenever the window is
positive) it is the last `max_recent_turns` turns. -/
theorem c10_get_recent_turns_zero (mem : ConversationMemory)
    (h : mem.turns ≠ []) :
    mem.get_recent_turns (some 0) = mem.get_recent_turns none ∧
    mem.get_recent_turns (some 0) ≠ [] ∧
    (1 ≤ mem.max_recent_turns →
      mem.get_recent_turns (some 0) =
        mem.turns.drop (mem.turns.length - mem.max_recent_turns)) := by
  refine ⟨rfl, ?_, ?_⟩
  · by_cases hm : mem.max_recent_turns = 0
    · simpa [ConversationMemory.get_recent_turns, hm] using h
    · have hlen : 0 < mem.turns.length := List.length_pos.mpr h
      simp [ConversationMemory.get_recent_turns, hm, List.drop_eq_nil_iff]
      omega
  · intro h1
    have hm : mem.max_recent_turns ≠ 0 := by omega
    simp [ConversationMemory.get_recent_turns, hm]

theorem c10_get_recent_turns_zero_witness :
    let mem : ConversationMemory := ⟨[⟨"user", "hi", "t0", []⟩], 10⟩
    mem.get_recent_turns (some 0) = mem.get_recent_turns none ∧
    mem.get_recent_turns (some 0) ≠ [] ∧
    (1 ≤ mem.max_recent_turns →
      mem.get_recent_turns (some 0) =
        mem.turns.drop (mem.turns.length - mem.max_recent_turns)) :=
  c10_get_recent_turns_zero ⟨[⟨"user", "hi", "t0", []⟩], 10⟩ (by simp)

/-- C9: for a session id with no persisted record, `load_session` returns
`None`, `delete_session` returns `False`, and the mapping-style deletion
`del store[id]` raises `KeyError`. -/
theorem c9_missing_session (fs : StoreFS) (id : String)
    (hp : fsLookup fs.pkl id = none) (hj : fsLookup fs.jsonm id = none) :
    loadSession fs id = none ∧
    (deleteSession fs id).1 = false ∧
    storeDelItem fs id = .error ("KeyError: " ++ id) := by
  refine ⟨?_, ?_, ?_⟩
  · simp [loadSession, hp]
  · simp [deleteSession, hp, hj]
  · simp [storeDelItem, deleteSession, hp, hj]

theorem c9_missing_session_witness :
    loadSession StoreFS.empty "nope" = none ∧
    (deleteSession StoreFS.empty "nope").1 = false ∧
    storeDelItem StoreFS.empty "nope" = .error ("KeyError: " ++ "nope") :=
  c9_missing_session StoreFS.empty "nope" rfl rfl

/-- C8 counterexample: on the initial state the `candidate` bucket is a
dict, and updating it with the non-mapping value `"x"` raises a
`TypeError` (Python attempts `dict.update("x")`) instead of replacing
the bucket as the claim states. -/
theorem c8_counterexample :
    sessionStateUpdate sessionStateInit [("candidate", Val.str "x")] =
      .error "TypeError: dict.update requires a mapping" ∧
    sessionStateUpdate sessionStateInit [("candidate", Val.str "x")] ≠
      .ok (pyDictInsert sessionStateInit "candidate" (Val.str "x")) := by
  constructor
  · rfl
  · intro h
    simp [sessionStateUpdate, sessionStateUpdateOne, sessionStateInit,
      lookupV, pyDictUpdate, bind, Except.bind] at h

/-- C8 (amended): `update` merges key-by-key only when the key exists and
the existing bucket value is a dict and the incoming value is a mapping;
a missing key or a non-dict existing value replaces the bucket; but an
existing dict bucket with a non-mapping incoming value raises (the
incoming value's shape is never checked before `dict.update`). -/
theorem c8_update_semantics (data : List (String × Val)) (k : String) (v : Val)
    (rest : List (String × Val)) :
    (lookupV data k = none →
      sessionStateUpdate data ((k, v) :: rest) =
        sessionStateUpdate (pyDictInsert data k v) rest) ∧
    (∀ w, lookupV data k = some w → (∀ d, w ≠ .dict d) →
      sessionStateUpdate data ((k, v) :: rest) =
        sessionStateUpdate (pyDictInsert data k v) rest) ∧
    (∀ d m, lookupV data k = some (.dict d) → v = .dict m →
      sessionStateUpdate data ((k, v) :: rest) =
        sessionStateUpdate (pyDictInsert data k (.dict (pyDictMerge d m))) rest) ∧
    (∀ d, lookupV data k = some (.dict d) → (∀ m, v ≠ .dict m) →
      sessionStateUpdate data ((k, v) :: rest) =
        .error "TypeError: dict.update requires a mapping") := by
  refine ⟨?_, ?_, ?_, ?_⟩
  · intro hnone
    simp [sessionStateUpdate, sessionStateUpdateOne, hnone, bind, Except.bind]
  · intro w hw hnd
    cases w with
    | dict d => exact absurd rfl (hnd d)
    | str s => simp [sessionStateUpdate, sessionStateUpdateOne, hw, bind, Except.bind]
    | int n => simp [sessionStateUpdate, sessionStateUpdateOne, hw, bind, Except.bind]
    | bool b => simp [sessionStateUpdate, sessionStateUpdateOne, hw, bind, Except.bind]
    | null => simp [sessionStateUpdate, sessionStateUpdateOne, hw, bind, Except.bind]
  · intro d m hd hv
    subst hv
    simp [sessionStateUpdate, sessionStateUpdateOne, hd, pyDictUpdate, bind,
      Except.bind, pure, Except.pure]
  · intro d hd hnm
    cases v with
    | dict m => exact absurd rfl (hnm m)
    | str s => simp [sessionStateUpdate, sessionStateUpdateOne, hd, pyDictUpdate, bind, Except.bind]
    | int n => simp [sessionStateUpdate, sessionStateUpdateOne, hd, pyDictUpdate, bind, Except.bind]
    | bool b => simp [sessionStateUpdate, sessionStateUpdateOne, hd, pyDictUpdate, bind, Except.bind]
    | null => simp [sessionStateUpdate, sessionStateUpdateOne, hd, pyDictUpdate, bind, Except.bind]

theorem c8_update_semantics_witness :
    (sessionStateUpdate [] [("a", Val.int 1)] =
      sessionStateUpdate (pyDictInsert [] "a" (Val.int 1)) []) ∧
    (sessionStateUpdate [("a", Val.int 1)] [("a", Val.int 2)] =
      sessionStateUpdate (pyDictInsert [("a", Val.int 1)] "a" (Val.int 2)) []) ∧
    (sessionStateUpdate [("a", Val.dict [("x", Val.int 1)])]
        [("a", Val.dict [("y", Val.int 2)])] =
      sessionStateUpdate (pyDictInsert [("a", Val.dict [("x", Val.int 1)])] "a"
        (Val.dict (pyDictMerge [("x", Val.int 1)] [("y", Val.int 2)]))) []) ∧
    (sessionStateUpdate [("a", Val.dict [])] [("a", Val.int 2)] =
      .error "TypeError: dict.update requires a mapping") := by
  refine ⟨?_, ?_, ?_, ?_⟩
  · exact (c8_update_semantics [] "a" (Val.int 1) []).1 rfl
  · exact (c8_update_semantics [("a", Val.int 1)] "a" (Val.int 2) []).2.1
      (Val.int 1) rfl (fun d h => by cases h)
  · exact (c8_update_semantics [("a", Val.dict [("x", Val.int 1)])] "a"
      (Val.dict [("y", Val.int 2)]) []).2.2.1 [("x", Val.int 1)]
      [("y", Val.int 2)] rfl rfl
  · exact (c8_update_semantics [("a", Val.dict [])] "a" (Val.int 2) []).2.2.2
      [] rfl (fun m h => by cases h)

/-- C2 counterexample: `sampleSession` carries one `SessionSnapshot`, but
the session reconstructed by `save_session` followed by `load_session`
carries none — `load_session` never reads the persisted `snapshots`
field back, so the opaque record does not round-trip losslessly. -/
theorem c2_counterexample :
    (loadSession (saveSession StoreFS.empty sampleSession "t1")
        "abc123").map (·.snapshots) = some [] ∧
    sampleSession.snapshots ≠ [] := by
  constructor
  · rfl
  · simp [sampleSession]

/-- C2 (amended): `save_session` followed by `load_session` of the same
id reconstructs a session with identical turn history, state contents,
mode, id, creation time and name — but the persisted snapshot list is
not restored: the loaded session's snapshot list is empty. -/
theorem c2_save_load_roundtrip (fs : StoreFS) (s : ResumeSession)
    (now : String) :
    ∃ s', loadSession (saveSession fs s now) s.session_id = some s' ∧
      s'.memory.turns = s.memory.turns ∧
      s'.state = s.state ∧
      s'.mode = s.mode ∧
      s'.session_id = s.session_id ∧
      s'.created_at = s.created_at ∧
      s'.name = s.name ∧
      s'.snapshots = [] := by
  refine ⟨{ job_info := s.job_info
            candidate_info := s.candidate_info
            mode := s.mode
            memory := { turns := s.memory.turns, max_recent_turns := 10 }
            state := s.state
            snapshots := []
            session_id := s.session_id
            created_at := s.created_at
            auto_persist := false
            name := s.name
            system_prompt := defaultSystemPrompt
            storeFS := StoreFS.empty },
    ?_, rfl, rfl, rfl, rfl, rfl, rfl, rfl⟩
  unfold loadSession saveSession
  rw [fsLookup_pyDictInsert_self]
  rfl

/-- C1 counterexample: with an importable LangChain stack whose agent
invocation raises, the exception propagates out of `chat` (instead of
being converted to an error string) and the history grows by only the
user turn. -/
theorem c1_counterexample :
    (sampleSession.chat envLangchainBoom "t1" "hello").1 =
      .error "boom" ∧
    (sampleSession.chat envLangchainBoom "t1" "hello").2.memory.turns.length =
      sampleSession.memory.turns.length + 1 := by
  constructor <;> rfl

/-- C1 (amended): on the fallback path — LangChain not importable — `chat`
never propagates a worker exception: it always returns a response string
and appends exactly the user and assistant turns; and when the direct
completion call fails, the returned response is a non-empty visible
error string ("Error: ..."). -/
theorem c1_chat_fallback_no_raise
    (call : List (String × String) → Except String String)
    (now : String) (s : ResumeSession) (msg : String) :
    (∃ resp s', ResumeSession.chat ⟨none, call⟩ now s msg = (.ok resp, s') ∧
      s'.memory.turns = s.memory.turns ++
        [⟨"user", msg, now, []⟩, ⟨"assistant", resp, now, []⟩]) ∧
    ((∀ m, ∃ e, call m = .error e) →
      ∃ resp s', ResumeSession.chat ⟨none, call⟩ now s msg = (.ok resp, s') ∧
        resp ≠ "" ∧ (∃ tail, resp = "Error: " ++ tail) ∧
        s'.memory.turns = s.memory.turns ++
          [⟨"user", msg, now, []⟩, ⟨"assistant", resp, now, []⟩]) := by
  constructor
  · refine ⟨_, _, rfl, ?_⟩
    by_cases hp : s.auto_persist <;>
      simp [ResumeSession.chat, processWithSupervisor,
        ResumeSession.createSnapshot, ResumeSession.save,
        ConversationMemory.add_turn, hp]
  · intro hfail
    refine ⟨_, _, rfl, ?_, ?_, ?_⟩
    · obtain ⟨e, he⟩ := hfail (fallbackMessages
        ((({ s with memory := s.memory.add_turn "user" msg now [] } :
          ResumeSession)).createSnapshot now) msg)
      simp only [ResumeSession.chat, processWithSupervisor,
        fallbackProcessing, he]
      intro hcon
      have hlen := congrArg String.length hcon
      simp [String.length_append] at hlen
      exact absurd hlen.2 (by decide)
    · obtain ⟨e, he⟩ := hfail (fallbackMessages
        ((({ s with memory := s.memory.add_turn "user" msg now [] } :
          ResumeSession)).createSnapshot now) msg)
      simp only [ResumeSession.chat, processWithSupervisor,
        fallbackProcessing, he]
      exact ⟨e ++ "\n\nTo use AI agents, install: pip install langchain langchain-openai openai",
        by rw [String.append_assoc]⟩
    · by_cases hp : s.auto_persist <;>
        simp [ResumeSession.chat, processWithSupervisor,
          ResumeSession.createSnapshot, ResumeSession.save,
          ConversationMemory.add_turn, hp]

theorem countModeChange_append (ts us : List Turn) :
    countModeChange (ts ++ us) = countModeChange ts + countModeChange us := by
  simp [countModeChange, List.filter_append]

theorem maybeSave_mode (x : ResumeSession) (now : String) :
    (if x.auto_persist then x.save now else x).mode = x.mode := by
  by_cases hp : x.auto_persist <;> simp [hp, ResumeSession.save]

theorem maybeSave_turns (x : ResumeSession) (now : String) :
    (if x.auto_persist then x.save now else x).memory.turns =
      x.memory.turns := by
  by_cases hp : x.auto_persist <;> simp [hp, ResumeSession.save]

theorem chat_mode_eq (env : WorkerEnv) (now : String) (s : ResumeSession)
    (m : String) : (ResumeSession.chat env now s m).2.mode = s.mode := by
  cases hp : processWithSupervisor env
      (({ s with memory := s.memory.add_turn "user" m now [] } :
        ResumeSession).createSnapshot now) m with
  | error e =>
      simp only [ResumeSession.chat]
      rw [hp]
      rfl
  | ok resp =>
      simp only [ResumeSession.chat]
      rw [hp]
      by_cases hsp : s.auto_persist <;>
        simp [hsp, ResumeSession.save, ResumeSession.createSnapshot]

theorem chat_countModeChange_eq (env : WorkerEnv) (now : String)
    (s : ResumeSession) (m : String) :
    countModeChange (ResumeSession.chat env now s m).2.memory.turns =
      countModeChange s.memory.turns := by
  cases hp : processWithSupervisor env
      (({ s with memory := s.memory.add_turn "user" m now [] } :
        ResumeSession).createSnapshot now) m with
  | error e =>
      simp only [ResumeSession.chat]
      rw [hp]
      simp [ResumeSession.createSnapshot, ConversationMemory.add_turn,
        countModeChange_append, countModeChange, Turn.isModeChange, lookupV]
  | ok resp =>
      simp only [ResumeSession.chat]
      rw [hp]
      by_cases hsp : s.auto_persist <;>
        simp [hsp, ResumeSession.save, ResumeSession.createSnapshot,
          ConversationMemory.add_turn, countModeChange_append, countModeChange,
          Turn.isModeChange, lookupV]

theorem switch_mode_mode (s : ResumeSession) (md : OperationMode)
    (now : String) : (s.switch_mode md now).mode = md := by
  unfold ResumeSession.switch_mode
  by_cases hp : s.auto_persist <;> simp [hp, ResumeSession.save]

theorem switch_mode_turns (s : ResumeSession) (md : OperationMode)
    (now : String) : (s.switch_mode md now).memory.turns =
      s.memory.turns ++
        [⟨"system", "Mode switched to " ++ md.value, now,
          [("mode_change", Val.bool true)]⟩] := by
  unfold ResumeSession.switch_mode
  by_cases hp : s.auto_persist <;>
    simp [hp, ResumeSession.save, ConversationMemory.add_turn]

theorem switch_mode_countModeChange (s : ResumeSession) (md : OperationMode)
    (now : String) :
    countModeChange (s.switch_mode md now).memory.turns =
      countModeChange s.memory.turns + 1 := by
  rw [switch_mode_turns, countModeChange_append]
  rfl

theorem execLoop_mode_inv (env : WorkerEnv) (now : String) (p : Plan)
    (interactive : Bool) (callback : PlanStep → String) :
    ∀ (fuel : Nat) (completed : Finset String)
      (results : List (String × StepResult)) (s : ResumeSession),
      (execLoop env now p interactive callback fuel completed results s).2.mode
          = s.mode ∧
      countModeChange (execLoop env now p interactive callback fuel completed
          results s).2.memory.turns = countModeChange s.memory.turns := by
  intro fuel
  induction fuel with
  | zero => intro c r s; exact ⟨rfl, rfl⟩
  | succ f ih =>
      intro c r s
      rw [execLoop]
      by_cases hc : c.card < p.steps.length
      · simp only [if_pos hc]
        cases hex : p.get_executable_steps c with
        | nil => exact ⟨rfl, rfl⟩
        | cons step rest =>
            simp only []
            by_cases hn : interactive ∧
                (if interactive then pyLower (callback step) else "") = "n"
            · simp only [if_pos hn]; exact ⟨by trivial, by trivial⟩
            · simp only [if_neg hn]
              by_cases hs : interactive ∧
                  (if interactive then pyLower (callback step) else "") = "skip"
              · simp only [if_pos hs]
                exact ih (insert step.id c) r s
              · simp only [if_neg hs]
                cases hr : (s.chat env now (stepToInstruction step)).1 with
                | error e =>
                    simp only []
                    exact ⟨chat_mode_eq env now s _,
                      chat_countModeChange_eq env now s _⟩
                | ok resp =>
                    simp only []
                    refine ⟨?_, ?_⟩
                    · rw [(ih _ _ _).1, chat_mode_eq]
                    · rw [(ih _ _ _).2, chat_countModeChange_eq]
      · simp only [if_neg hc]; exact ⟨by trivial, by trivial⟩

/-- C3: for every plan that passes validation, `execute_plan` restores
the session's prior mode on every exit path — success, decline,
deadlock, or an exception escaping step execution — via the `finally`
transition, performed exactly once: the final mode equals the original
mode, exactly two mode-change system turns are added in total (the
switch into autonomous mode and the single restore), and the last turn
of the final history is the restoring transition's system turn. -/
theorem c3_execute_plan_restores_mode (env : WorkerEnv) (now : String)
    (s : ResumeSession) (p : Plan) (interactive : Bool)
    (callback : PlanStep → String) (h : p.validate = []) :
    (executePlan env now s p interactive callback).2.mode = s.mode ∧
    countModeChange (executePlan env now s p interactive
        callback).2.memory.turns = countModeChange s.memory.turns + 2 ∧
    (∃ ts, (executePlan env now s p interactive callback).2.memory.turns =
      ts ++ [⟨"system", "Mode switched to " ++ s.mode.value, now,
        [("mode_change", Val.bool true)]⟩]) := by
  unfold executePlan
  simp only [h, ne_eq, not_true_eq_false, if_false, ite_false]
  refine ⟨?_, ?_, ?_⟩
  · rw [switch_mode_mode]
  · rw [switch_mode_countModeChange,
      (execLoop_mode_inv env now p interactive callback _ _ _ _).2,
      switch_mode_countModeChange]
  · exact ⟨_, switch_mode_turns _ _ _⟩

theorem c3_execute_plan_restores_mode_witness :
    (executePlan envLangchainBoom "t1" sampleSession plan1 false
        (fun _ => "")).2.mode = sampleSession.mode ∧
    countModeChange (executePlan envLangchainBoom "t1" sampleSession plan1
        false (fun _ => "")).2.memory.turns =
      countModeChange sampleSession.memory.turns + 2 ∧
    (∃ ts, (executePlan envLangchainBoom "t1" sampleSession plan1 false
        (fun _ => "")).2.memory.turns =
      ts ++ [⟨"system", "Mode switched to " ++ sampleSession.mode.value, "t1",
        [("mode_change", Val.bool true)]⟩]) :=
  c3_execute_plan_restores_mode envLangchainBoom "t1" sampleSession plan1
    false (fun _ => "") rfl

/-- C4 counterexample: an approval callback returning `"decline"` does
not abort the run — the code only compares against `'n'` — so on a
one-step plan the declined step is executed anyway and the run finishes
with a non-empty completed set and recorded results. -/
theorem c4_counterexample :
    (executePlan envFallbackOk "t1" sampleSession plan1 true
        (fun _ => "decline")).1 =
      .ok (.success (insert "s1" ∅)
        [("s1", ⟨"generate_draft", "Generate resume draft", "resp", "t1"⟩)]) ∧
    insert "s1" (∅ : Finset String) ≠ ∅ := by
  constructor
  · rfl
  · simp

/-- C4 (amended): in interactive mode, a callback response lowercasing
to `"n"` aborts the whole run with the partial results accumulated so
far; `"skip"` marks the step completed without executing it and
continues; any other response — including `"approve"` and `"decline"` —
causes the step to be translated to an instruction and executed via
`session.chat`. -/
theorem c4_interactive_semantics (env : WorkerEnv) (now : String) (p : Plan)
    (callback : PlanStep → String) (fuel : Nat) (completed : Finset String)
    (results : List (String × StepResult)) (s : ResumeSession)
    (step : PlanStep) (rest : List PlanStep)
    (hcard : completed.card < p.steps.length)
    (hexec : p.get_executable_steps completed = step :: rest) :
    (pyLower (callback step) = "n" →
      execLoop env now p true callback (fuel + 1) completed results s =
        (.ok (.success completed results), s)) ∧
    (pyLower (callback step) = "skip" →
      execLoop env now p true callback (fuel + 1) completed results s =
        execLoop env now p true callback fuel (insert step.id completed)
          results s) ∧
    (pyLower (callback step) ≠ "n" → pyLower (callback step) ≠ "skip" →
      execLoop env now p true callback (fuel + 1) completed results s =
        (match (s.chat env now (stepToInstruction step)).1 with
         | .error e => (.error e, (s.chat env now (stepToInstruction step)).2)
         | .ok resp =>
             execLoop env now p true callback fuel (insert step.id completed)
               (results ++
                 [(step.id, ⟨step.action, step.description, resp, now⟩)])
               (s.chat env now (stepToInstruction step)).2)) := by
  refine ⟨?_, ?_, ?_⟩
  · intro hn
    rw [execLoop]
    simp [if_pos hcard, hexec, hn]
  · intro hs
    rw [execLoop]
    simp [if_pos hcard, hexec, hs]
  · intro hn hs
    rw [execLoop]
    simp [if_pos hcard, hexec, hn, hs]

theorem c4_interactive_semantics_witness :
    (execLoop envFallbackOk "t1" plan1 true (fun _ => "N") 2 ∅ []
        sampleSession = (.ok (.success ∅ []), sampleSession)) ∧
    (execLoop envFallbackOk "t1" plan1 true (fun _ => "skip") 2 ∅ []
        sampleSession =
      execLoop envFallbackOk "t1" plan1 true (fun _ => "skip") 1
        (insert "s1" ∅) [] sampleSession) ∧
    (execLoop envFallbackOk "t1" plan1 true (fun _ => "approve") 2 ∅ []
        sampleSession =
      (match (sampleSession.chat envFallbackOk "t1"
          (stepToInstruction ⟨"s1", "generate_draft", "Generate resume draft",
            [], []⟩)).1 with
       | .error e => (.error e, (sampleSession.chat envFallbackOk "t1"
           (stepToInstruction ⟨"s1", "generate_draft", "Generate resume draft",
             [], []⟩)).2)
       | .ok resp =>
           execLoop envFallbackOk "t1" plan1 true (fun _ => "approve") 1
             (insert "s1" ∅)
             ([] ++ [("s1", ⟨"generate_draft", "Generate resume draft", resp,
               "t1"⟩)])
             (sampleSession.chat envFallbackOk "t1"
               (stepToInstruction ⟨"s1", "generate_draft",
                 "Generate resume draft", [], []⟩)).2)) := by
  refine ⟨?_, ?_, ?_⟩
  · exact (c4_interactive_semantics envFallbackOk "t1" plan1 (fun _ => "N") 1
      ∅ [] sampleSession ⟨"s1", "generate_draft", "Generate resume draft",
        [], []⟩ [] (by decide) rfl).1 rfl
  · exact (c4_interactive_semantics envFallbackOk "t1" plan1 (fun _ => "skip")
      1 ∅ [] sampleSession ⟨"s1", "generate_draft", "Generate resume draft",
        [], []⟩ [] (by decide) rfl).2.1 rfl
  · exact (c4_interactive_semantics envFallbackOk "t1" plan1
      (fun _ => "approve") 1 ∅ [] sampleSession ⟨"s1", "generate_draft",
        "Generate resume draft", [], []⟩ [] (by decide) rfl).2.2
      (by decide) (by decide)

/-- C7: `execute_plan` distinguishes its two failure modes.  For a plan
whose validation returns a non-empty error list it fails immediately,
returning that error list with an empty completed set and the session
untouched, before any step runs; and when the executable frontier of
the running loop becomes empty while steps remain uncompleted, the loop
stops and reports deadlock failure carrying the partial completed set
and the partial per-step results. -/
theorem c7_failure_reporting (env : WorkerEnv) (now : String)
    (s : ResumeSession) (p1 : Plan) (interactive : Bool)
    (callback : PlanStep → String) (hval : p1.validate ≠ [])
    (p2 : Plan) (fuel : Nat) (completed : Finset String)
    (results : List (String × StepResult)) (sAuto : ResumeSession)
    (hcard : completed.card < p2.steps.length)
    (hdead : p2.get_executable_steps completed = []) :
    executePlan env now s p1 interactive callback =
      (.ok (.invalid p1.validate ∅), s) ∧
    execLoop env now p2 interactive callback (fuel + 1) completed results
        sAuto =
      (.ok (.deadlock "Plan deadlock: no executable steps remaining"
        completed results), sAuto) := by
  constructor
  · unfold executePlan
    rw [if_pos hval]
  · rw [execLoop]
    simp [if_pos hcard, hdead]

theorem c7_failure_reporting_witness :
    executePlan envFallbackOk "t1" sampleSession planDangling false
        (fun _ => "") =
      (.ok (.invalid planDangling.validate ∅), sampleSession) ∧
    execLoop envFallbackOk "t1" planDangling false (fun _ => "") 2 ∅ []
        sampleSession =
      (.ok (.deadlock "Plan deadlock: no executable steps remaining" ∅ []),
        sampleSession) :=
  c7_failure_reporting envFallbackOk "t1" sampleSession planDangling false
    (fun _ => "") (by simp [Plan.validate, planDangling, danglingMsg])
    planDangling 1 ∅ [] sampleSession (by decide) rfl

theorem mem_pyDictInsert {α : Type} (l : List (String × α)) (k : String)
    (v : α) (kv : String × α) (h : kv ∈ pyDictInsert l k v) :
    kv ∈ l ∨ kv = (k, v) := by
  induction l with
  | nil => simp [pyDictInsert] at h; exact Or.inr h
  | cons hd tl ih =>
      by_cases hk : hd.1 = k
      · simp only [pyDictInsert, if_pos hk] at h
        rcases List.mem_cons.mp h with h' | h'
        · exact Or.inr h'
        · exact Or.inl (List.mem_cons_of_mem hd h')
      · simp only [pyDictInsert, if_neg hk] at h
        rcases List.mem_cons.mp h with h' | h'
        · exact Or.inl (h' ▸ List.mem_cons_self hd tl)
        · rcases ih h' with h'' | h''
          · exact Or.inl (List.mem_cons_of_mem hd h'')
          · exact Or.inr h''

theorem mem_graphOf (p : Plan) (kv : String × List String)
    (h : kv ∈ graphOf p) :
    ∃ s, s ∈ p.steps ∧ kv.1 = s.id ∧ kv.2 = s.dependencies := by
  unfold graphOf at h
  suffices haux : ∀ (steps : List PlanStep)
      (acc : List (String × List String)),
      kv ∈ steps.foldl (fun g s => pyDictInsert g s.id s.dependencies) acc →
      kv ∈ acc ∨ ∃ s, s ∈ steps ∧ kv.1 = s.id ∧ kv.2 = s.dependencies by
    rcases haux p.steps [] h with h' | h'
    · cases h'
    · exact h'
  intro steps
  induction steps with
  | nil => intro acc h'; exact Or.inl h'
  | cons s rest ih =>
      intro acc h'
      simp only [List.foldl_cons] at h'
      rcases ih (pyDictInsert acc s.id s.dependencies) h' with h'' | h''
      · rcases mem_pyDictInsert acc s.id s.dependencies kv h'' with h3 | h3
        · exact Or.inl h3
        · exact Or.inr ⟨s, List.mem_cons_self s rest, by rw [h3], by rw [h3]⟩
      · obtain ⟨t, ht, h1, h2⟩ := h''
        exact Or.inr ⟨t, List.mem_cons_of_mem s ht, h1, h2⟩

theorem gEdge_depEdge (p : Plan) (a b : String)
    (h : gEdge (graphOf p) a b) : DepEdge p a b := by
  unfold gEdge graphGet at h
  cases hf : (graphOf p).find? (fun kv => decide (kv.1 = a)) with
  | none => rw [hf] at h; cases h
  | some kv =>
      rw [hf] at h
      have hm := List.mem_of_find?_eq_some hf
      have hp : kv.1 = a := by simpa using List.find?_some hf
      obtain ⟨s, hs, h1, h2⟩ := mem_graphOf p kv hm
      exact ⟨s, hs, by rw [← h1, hp], by rw [← h2]; exact h⟩

theorem gEdge_mem_keys (g : List (String × List String)) (a b : String)
    (h : gEdge g a b) : a ∈ g.map (·.1) := by
  unfold gEdge graphGet at h
  cases hf : g.find? (fun kv => decide (kv.1 = a)) with
  | none => rw [hf] at h; cases h
  | some kv =>
      have hm := List.mem_of_find?_eq_some hf
      have hp : kv.1 = a := by simpa using List.find?_some hf
      exact hp ▸ List.mem_map.mpr ⟨kv, hm, rfl⟩

theorem cleanFrom_of_nbrs (g : List (String × List String)) (node : String)
    (h : ∀ n ∈ graphGet g node, CleanFrom g n) : CleanFrom g node := by
  intro m hm hcyc
  rcases Relation.ReflTransGen.cases_head hm with heq | ⟨c, hc, hrt⟩
  · subst heq
    obtain ⟨c, hc, hrt⟩ := Relation.TransGen.head'_iff.mp hcyc
    exact h c hc node hrt hcyc
  · exact h c hc m hrt hcyc

theorem dfsNbrs_complete (g : List (String × List String)) (f : Nat)
    (IH : ∀ (node : String) (st : DfsSt),
      (∀ v ∈ st.visited, CleanFrom g v) →
      (dfsVisit g f node st).1 = false →
      (∀ v ∈ (dfsVisit g f node st).2.visited, CleanFrom g v) ∧
      CleanFrom g node) :
    ∀ (nbrs : List String) (st : DfsSt),
      (∀ v ∈ st.visited, CleanFrom g v) →
      (dfsNbrsAux (dfsVisit g f) nbrs st).1 = false →
      (∀ v ∈ (dfsNbrsAux (dfsVisit g f) nbrs st).2.visited, CleanFrom g v) ∧
      ∀ n ∈ nbrs, CleanFrom g n := by
  intro nbrs
  induction nbrs with
  | nil =>
      intro st hinv _
      exact ⟨hinv, fun n hn => absurd hn (List.not_mem_nil n)⟩
  | cons n ns ih =>
      intro st hinv hfalse
      simp only [dfsNbrsAux] at hfalse ⊢
      cases hr : (dfsVisit g f n st).1 with
      | true => rw [hr] at hfalse; simp at hfalse
      | false =>
          rw [hr] at hfalse
          simp only [Bool.false_eq_true, if_false, ite_false] at hfalse ⊢
          have hn := IH n st hinv hr
          have hrec := ih (dfsVisit g f n st).2 hn.1 hfalse
          refine ⟨hrec.1, fun m hm => ?_⟩
          rcases List.mem_cons.mp hm with h' | h'
          · exact h' ▸ hn.2
          · exact hrec.2 m h'

theorem dfsVisit_complete (g : List (String × List String)) :
    ∀ (fuel : Nat) (node : String) (st : DfsSt),
      (∀ v ∈ st.visited, CleanFrom g v) →
      (dfsVisit g fuel node st).1 = false →
      (∀ v ∈ (dfsVisit g fuel node st).2.visited, CleanFrom g v) ∧
      CleanFrom g node := by
  intro fuel
  induction fuel with
  | zero =>
      intro node st _ hfalse
      simp [dfsVisit] at hfalse
  | succ f ihf =>
      intro node st hinv hfalse
      rw [dfsVisit] at hfalse ⊢
      by_cases hvd : node ∈ st.visited
      · simp only [if_pos hvd] at hfalse ⊢
        exact ⟨hinv, hinv node hvd⟩
      · by_cases hvg : node ∈ st.visiting
        · rw [if_neg hvd, if_pos hvg] at hfalse
          simp at hfalse
        · rw [if_neg hvd, if_neg hvg] at hfalse ⊢
          dsimp only at hfalse ⊢
          cases hr : (dfsNbrsAux (dfsVisit g f) (graphGet g node)
              { visiting := node :: st.visiting, visited := st.visited }).1 with
          | true => rw [hr] at hfalse; simp at hfalse
          | false =>
              rw [hr] at hfalse
              simp only [Bool.false_eq_true, if_false, ite_false] at hfalse ⊢
              have hrec := dfsNbrs_complete g f ihf (graphGet g node)
                { visiting := node :: st.visiting, visited := st.visited }
                hinv hr
              have hclean : CleanFrom g node := cleanFrom_of_nbrs g node hrec.2
              refine ⟨fun v hv => ?_, hclean⟩
              rcases List.mem_cons.mp hv with h' | h'
              · exact h' ▸ hclean
              · exact hrec.1 v h'

theorem findCycleNode_none_clean (g : List (String × List String))
    (fuel : Nat) :
    ∀ (keys : List String) (st : DfsSt),
      (∀ v ∈ st.visited, CleanFrom g v) →
      findCycleNode g fuel keys st = none →
      ∀ k ∈ keys, CleanFrom g k := by
  intro keys
  induction keys with
  | nil => intro st _ _ k hk; cases hk
  | cons k ks ih =>
      intro st hinv hnone k' hk'
      rw [findCycleNode] at hnone
      cases hr : (dfsVisit g fuel k st).1 with
      | true => rw [hr] at hnone; simp at hnone
      | false =>
          rw [hr] at hnone
          simp only [Bool.false_eq_true, if_false, ite_false] at hnone
          have hk := dfsVisit_complete g fuel k st hinv hr
          rcases List.mem_cons.mp hk' with h' | h'
          · exact h' ▸ hk.2
          · exact ih (dfsVisit g fuel k st).2 hk.1 hnone k' h'

theorem step_unique_of_nodup (steps : List PlanStep)
    (hnd : (steps.map (·.id)).Nodup) :
    ∀ s t : PlanStep, s ∈ steps → t ∈ steps → s.id = t.id → s = t := by
  induction steps with
  | nil => intro s t hs _ _; cases hs
  | cons h rest ih =>
      intro s t hs ht hid
      have hh : h.id ∉ rest.map (·.id) := (List.nodup_cons.mp hnd).1
      have hnd' : (rest.map (·.id)).Nodup := (List.nodup_cons.mp hnd).2
      rcases List.mem_cons.mp hs with hs' | hs' <;>
        rcases List.mem_cons.mp ht with ht' | ht'
      · rw [hs', ht']
      · exfalso
        apply hh
        exact List.mem_map.mpr ⟨t, ht', by rw [← hid, hs']⟩
      · exfalso
        apply hh
        exact List.mem_map.mpr ⟨s, hs', by rw [hid, ht']⟩
      · exact ih hnd' s t hs' ht' hid

theorem find?_id_eq_of_nodup (steps : List PlanStep)
    (hnd : (steps.map (·.id)).Nodup) (s : PlanStep) (hs : s ∈ steps) :
    steps.find? (fun t => decide (t.id = s.id)) = some s := by
  induction steps with
  | nil => cases hs
  | cons h rest ih =>
      by_cases hid : h.id = s.id
      · have hseq : s = h := by
          rcases List.mem_cons.mp hs with h' | h'
          · exact h'
          · exfalso
            exact (List.nodup_cons.mp hnd).1 (List.mem_map.mpr ⟨s, h', hid.symm⟩)
        rw [List.find?_cons_of_pos _ (by simpa using hid), hseq]
      · have hs' : s ∈ rest := by
          rcases List.mem_cons.mp hs with h' | h'
          · exact absurd (show h.id = s.id by rw [h']) hid
          · exact h'
        rw [List.find?_cons_of_neg _ (by simpa using hid)]
        exact ih (List.nodup_cons.mp hnd).2 hs'

theorem pyDictInsert_of_not_mem {α : Type} (l : List (String × α))
    (k : String) (v : α) (h : ∀ kv ∈ l, kv.1 ≠ k) :
    pyDictInsert l k v = l ++ [(k, v)] := by
  induction l with
  | nil => rfl
  | cons hd tl ih =>
      have hhd : hd.1 ≠ k := h hd (List.mem_cons_self hd tl)
      simp only [pyDictInsert, if_neg hhd, List.cons_append]
      rw [ih (fun kv hkv => h kv (List.mem_cons_of_mem hd hkv))]

theorem graphOf_eq_of_nodup (p : Plan) (hnd : (p.steps.map (·.id)).Nodup) :
    graphOf p = p.steps.map (fun s => (s.id, s.dependencies)) := by
  unfold graphOf
  suffices haux : ∀ (steps : List PlanStep)
      (acc : List (String × List String)),
      (steps.map (·.id)).Nodup →
      (∀ s ∈ steps, ∀ kv ∈ acc, kv.1 ≠ s.id) →
      steps.foldl (fun g s => pyDictInsert g s.id s.dependencies) acc =
        acc ++ steps.map (fun s => (s.id, s.dependencies)) by
    simpa using haux p.steps [] hnd (by intro s _ kv hkv; cases hkv)
  intro steps
  induction steps with
  | nil => intro acc _ _; simp
  | cons s rest ih =>
      intro acc hnd' hdisj
      simp only [List.foldl_cons, List.map_cons]
      rw [pyDictInsert_of_not_mem acc s.id s.dependencies
        (fun kv hkv => hdisj s (List.mem_cons_self s rest) kv hkv)]
      rw [ih (acc ++ [(s.id, s.dependencies)]) (List.nodup_cons.mp hnd').2 ?_]
      · simp
      · intro t ht kv hkv
        rcases List.mem_append.mp hkv with h' | h'
        · exact hdisj t (List.mem_cons_of_mem s ht) kv h'
        · have : kv = (s.id, s.dependencies) := List.mem_singleton.mp h'
          rw [this]
          intro hcon
          exact (List.nodup_cons.mp hnd').1 (List.mem_map.mpr ⟨t, ht, hcon.symm⟩)

theorem graphGet_graphOf_of_nodup (p : Plan)
    (hnd : (p.steps.map (·.id)).Nodup) (s : PlanStep) (hs : s ∈ p.steps) :
    graphGet (graphOf p) s.id = s.dependencies := by
  rw [graphOf_eq_of_nodup p hnd]
  unfold graphGet
  rw [List.find?_map]
  rw [show ((fun kv : String × List String => decide (kv.1 = s.id)) ∘
      (fun t : PlanStep => (t.id, t.dependencies))) =
      (fun t : PlanStep => decide (t.id = s.id)) from rfl]
  rw [find?_id_eq_of_nodup p.steps hnd s hs]
  rfl

theorem depEdge_gEdge (p : Plan) (hnd : (p.steps.map (·.id)).Nodup)
    (a b : String) (h : DepEdge p a b) : gEdge (graphOf p) a b := by
  obtain ⟨s, hs, hid, hdep⟩ := h
  unfold gEdge
  rw [← hid, graphGet_graphOf_of_nodup p hnd s hs]
  exact hdep

theorem validate_has_cycle_error (p : Plan) (a : String)
    (hcyc : Relation.TransGen (gEdge (graphOf p)) a a) :
    ∃ n, cycleMsg n ∈ p.validate := by
  unfold Plan.validate
  cases hfind : findCycleNode (graphOf p) ((nodeUniverse p).length + 1)
      ((graphOf p).map (·.1)) ⟨[], []⟩ with
  | some node =>
      exact ⟨node, by simp [hfind]⟩
  | none =>
      exfalso
      have hclean := findCycleNode_none_clean (graphOf p)
        ((nodeUniverse p).length + 1) ((graphOf p).map (·.1)) ⟨[], []⟩
        (by intro v hv; cases hv) hfind
      obtain ⟨b, hab, -⟩ := Relation.TransGen.head'_iff.mp hcyc
      have hamem : a ∈ (graphOf p).map (·.1) := gEdge_mem_keys _ a b hab
      exact hclean a hamem a Relation.ReflTransGen.refl hcyc

theorem validate_nil_of_acyclic (p : Plan)
    (hacyc : ∀ x, ¬ DepPath p x x)
    (hclosed : ∀ s ∈ p.steps, ∀ d ∈ s.dependencies,
      d ∈ p.steps.map (·.id)) :
    p.validate = [] := by
  have hgacyc : ∀ x, ¬ Relation.TransGen (gEdge (graphOf p)) x x := by
    intro x hx
    exact hacyc x (Relation.TransGen.mono (gEdge_depEdge p) hx)
  have hU : ∀ x y, y ∈ graphGet (graphOf p) x → y ∈ nodeUniverse p := by
    intro x y hy
    unfold graphGet at hy
    cases hf : (graphOf p).find? (fun kv => decide (kv.1 = x)) with
    | none => rw [hf] at hy; cases hy
    | some kv =>
        rw [hf] at hy
        obtain ⟨s, hs, -, h2⟩ := mem_graphOf p kv
          (List.mem_of_find?_eq_some hf)
        exact List.mem_append.mpr (Or.inr
          (List.mem_flatMap.mpr ⟨s, hs, h2 ▸ hy⟩))
  have hkeys : ∀ k ∈ (graphOf p).map (·.1), k ∈ nodeUniverse p := by
    intro k hk
    obtain ⟨kv, hkv, hkveq⟩ := List.mem_map.mp hk
    obtain ⟨s, hs, h1, -⟩ := mem_graphOf p kv hkv
    exact List.mem_append.mpr (Or.inl
      (List.mem_map.mpr ⟨s, hs, by rw [← hkveq, h1]⟩))
  have hnone := findCycleNode_none_of_acyclic (graphOf p) (nodeUniverse p)
    hU hgacyc ((nodeUniverse p).length + 1) (by omega)
    ((graphOf p).map (·.1)) ⟨[], []⟩ hkeys rfl
  unfold Plan.validate
  dsimp only
  rw [hnone]
  simp only [List.append_nil]
  rw [List.flatMap_eq_nil_iff]
  intro s hs
  have hfilter : s.dependencies.filter
      (fun dep_id => decide (dep_id ∉ p.steps.map (·.id))) = [] := by
    rw [List.filter_eq_nil_iff]
    intro d hd
    simp only [decide_eq_true_eq, Decidable.not_not]
    exact hclosed s hs d hd
  have hself : s.id ∉ s.dependencies := by
    intro hmem
    exact hacyc s.id (Relation.TransGen.single ⟨s, hs, rfl, hmem⟩)
  rw [hfilter, if_neg hself]
  rfl

theorem mem_get_executable_steps (p : Plan) (c : Finset String)
    (s : PlanStep) (hs : s ∈ p.get_executable_steps c) :
    s ∈ p.steps ∧ s.id ∉ c ∧ ∀ d ∈ s.dependencies, d ∈ c := by
  unfold Plan.get_executable_steps at hs
  have h := List.mem_filter.mp hs
  have hb := h.2
  simp only [Bool.and_eq_true, decide_eq_true_eq, PlanStep.can_execute,
    List.all_eq_true] at hb
  exact ⟨h.1, hb.1, hb.2⟩

theorem executable_cycle_dep (p : Plan) (hnd : (p.steps.map (·.id)).Nodup)
    (c : Finset String) (s : PlanStep) (hs : s ∈ p.get_executable_steps c)
    (hcyc : DepPath p s.id s.id) : ∃ d ∈ c, DepPath p d d := by
  obtain ⟨hsp, -, hdeps⟩ := mem_get_executable_steps p c s hs
  obtain ⟨d, hedge, hrt⟩ := Relation.TransGen.head'_iff.mp hcyc
  obtain ⟨t, ht, htid, hd⟩ := hedge
  have hts : t = s := step_unique_of_nodup p.steps hnd t s ht hsp htid
  have hdc : d ∈ c := hdeps d (hts ▸ hd)
  refine ⟨d, hdc, ?_⟩
  rcases Relation.reflTransGen_iff_eq_or_transGen.mp hrt with heq | htg
  · exact Relation.TransGen.single ⟨t, ht, htid.trans heq, hd⟩
  · exact Relation.TransGen.tail htg ⟨t, ht, htid, hd⟩

theorem reachable_no_cycle (p : Plan) (hnd : (p.steps.map (·.id)).Nodup) :
    ∀ c : Finset String, ReachableCompleted p c →
      ∀ x ∈ c, ¬ DepPath p x x := by
  intro c hc
  induction hc with
  | init => intro x hx; cases hx
  | @mark c' s hc' hs ih =>
      intro x hx hcyc
      rcases Finset.mem_insert.mp hx with h' | h'
      · obtain ⟨d, hdc, hdcyc⟩ :=
          executable_cycle_dep p hnd c' s hs (h' ▸ hcyc)
        exact ih d hdc hdcyc
      · exact ih x h' hcyc

theorem progress_of_acyclic (p : Plan)
    (hacyc : ∀ a, ¬ DepPath p a a)
    (hclosed : ∀ s ∈ p.steps, ∀ d ∈ s.dependencies, d ∈ stepIdsF p)
    (c : Finset String) (s0 : PlanStep) (hs0 : s0 ∈ p.steps)
    (hs0c : s0.id ∉ c) :
    p.get_executable_steps c ≠ [] := by
  classical
  intro hempty
  have hnone : ∀ x ∈ p.steps,
      ¬(decide (x.id ∉ c) && x.can_execute c) = true := by
    intro x hx
    exact List.filter_eq_nil_iff.mp hempty x hx
  have key : ∀ x : PlanStep, x ∈ p.steps → x.id ∉ c →
      ∃ y, y ∈ p.steps ∧ y.id ∉ c ∧ DepEdge p x.id y.id := by
    intro x hx hxc
    have hnx := hnone x hx
    simp only [Bool.and_eq_true, decide_eq_true_eq, PlanStep.can_execute,
      List.all_eq_true, not_and, decide_eq_true_eq] at hnx
    have hnall := hnx hxc
    push_neg at hnall
    obtain ⟨d, hd, hdc⟩ := hnall
    have hdid := hclosed x hx d hd
    obtain ⟨y, hy, hyid⟩ := List.mem_map.mp (List.mem_toFinset.mp hdid)
    refine ⟨y, hy, ?_, ⟨x, hx, rfl, ?_⟩⟩
    · rw [hyid]; exact hdc
    · rw [hyid]; exact hd
  have key' : ∀ t : {x : PlanStep // x ∈ p.steps ∧ x.id ∉ c},
      ∃ u : {x : PlanStep // x ∈ p.steps ∧ x.id ∉ c},
        DepEdge p t.1.id u.1.id := by
    rintro ⟨x, hx, hxc⟩
    obtain ⟨y, hy, hyc, he⟩ := key x hx hxc
    exact ⟨⟨y, hy, hyc⟩, he⟩
  choose f hf using key'
  set g : Nat → {x : PlanStep // x ∈ p.steps ∧ x.id ∉ c} :=
    fun n => f^[n] ⟨s0, hs0, hs0c⟩ with hg
  have hstepg : ∀ n, g (n + 1) = f (g n) := by
    intro n
    simp only [hg, Function.iterate_succ_apply']
  have hpath : ∀ i j, i < j → DepPath p (g i).1.id (g j).1.id := by
    intro i j hij
    induction j with
    | zero => omega
    | succ j ih =>
        rcases Nat.lt_succ_iff_lt_or_eq.mp hij with h | h
        · have he := hf (g j)
          rw [← hstepg j] at he
          exact Relation.TransGen.tail (ih h) he
        · subst h
          have he := hf (g i)
          rw [← hstepg i] at he
          exact Relation.TransGen.single he
  have hmem : ∀ n, (g n).1.id ∈ stepIdsF p := fun n =>
    List.mem_toFinset.mpr (List.mem_map.mpr ⟨(g n).1, (g n).2.1, rfl⟩)
  obtain ⟨i, j, hne, heq⟩ := Fintype.exists_ne_map_eq_of_card_lt
    (fun n : Fin ((stepIdsF p).card + 1) =>
      (⟨(g n.1).1.id, hmem n.1⟩ : {x // x ∈ stepIdsF p}))
    (by simp [Fintype.card_coe])
  have hideq : (g i.1).1.id = (g j.1).1.id := congrArg Subtype.val heq
  have hij : i.1 < j.1 ∨ j.1 < i.1 := by
    rcases Nat.lt_or_ge i.1 j.1 with h | h
    · exact Or.inl h
    · rcases Nat.lt_or_ge j.1 i.1 with h' | h'
      · exact Or.inr h'
      · exact absurd (Fin.ext (by omega)) hne
  rcases hij with h | h
  · exact hacyc _ (hideq ▸ hpath i.1 j.1 h)
  · exact hacyc _ (hideq ▸ hpath j.1 i.1 h)

theorem subset_completeAll (p : Plan) (c : Finset String) :
    c ⊆ completeAll p c :=
  Finset.subset_union_left

theorem subset_iterate_completeAll (p : Plan) :
    ∀ (k : Nat) (c : Finset String), c ⊆ (completeAll p)^[k] c := by
  intro k
  induction k with
  | zero => intro c; exact Finset.Subset.refl c
  | succ k ih =>
      intro c
      rw [Function.iterate_succ_apply]
      exact (subset_completeAll p c).trans (ih (completeAll p c))

theorem completeAll_iterate_covers (p : Plan)
    (hacyc : ∀ a, ¬ DepPath p a a)
    (hclosed : ∀ s ∈ p.steps, ∀ d ∈ s.dependencies, d ∈ stepIdsF p) :
    ∀ (k : Nat) (c : Finset String), (stepIdsF p \ c).card ≤ k →
      stepIdsF p ⊆ (completeAll p)^[k] c := by
  intro k
  induction k with
  | zero =>
      intro c hc
      have : stepIdsF p \ c = ∅ := Finset.card_eq_zero.mp (Nat.le_zero.mp hc)
      exact Finset.sdiff_eq_empty_iff_subset.mp this
  | succ k ih =>
      intro c hc
      by_cases hsub : stepIdsF p ⊆ c
      · exact hsub.trans (subset_iterate_completeAll p (k + 1) c)
      · obtain ⟨x, hx, hxc⟩ := Finset.not_subset.mp hsub
        obtain ⟨s0, hs0, hs0id⟩ := List.mem_map.mp (List.mem_toFinset.mp hx)
        have hprog := progress_of_acyclic p hacyc hclosed c s0 hs0
          (by rw [hs0id]; exact hxc)
        cases hex : p.get_executable_steps c with
        | nil => exact absurd hex hprog
        | cons sh rest =>
            have hsh : sh ∈ p.get_executable_steps c := by
              rw [hex]; exact List.mem_cons_self sh rest
            obtain ⟨hshp, hshc, -⟩ := mem_get_executable_steps p c sh hsh
            have hshid : sh.id ∈ stepIdsF p :=
              List.mem_toFinset.mpr (List.mem_map.mpr ⟨sh, hshp, rfl⟩)
            have hshca : sh.id ∈ completeAll p c := by
              unfold completeAll
              refine Finset.mem_union_right _ ?_
              exact List.mem_toFinset.mpr (List.mem_map.mpr ⟨sh, hsh, rfl⟩)
            have hstrict : (stepIdsF p \ completeAll p c).card <
                (stepIdsF p \ c).card := by
              apply Finset.card_lt_card
              constructor
              · exact Finset.sdiff_subset_sdiff (Finset.Subset.refl _)
                  (subset_completeAll p c)
              · intro hcon
                have := hcon (Finset.mem_sdiff.mpr ⟨hshid, hshc⟩)
                exact (Finset.mem_sdiff.mp this).2 hshca
            have hk : (stepIdsF p \ completeAll p c).card ≤ k := by omega
            rw [Function.iterate_succ_apply]
            exact ih (completeAll p c) hk

/-- C5: `validate()` returns an empty error list for every plan whose
dependency relation has no cycles and no dangling references; and for
every plan (with the data-model invariant of unique step ids) containing
a dependency cycle of length at least two — two distinct ids each
reachable from the other — `validate()` reports at least one cycle
error, and `get_executable_steps` never returns a step inside that
cycle for any completed set built up by repeatedly adding returned
steps. -/
theorem c5_validate_cycles (p : Plan) :
    ((∀ x, ¬ DepPath p x x) →
      (∀ s ∈ p.steps, ∀ d ∈ s.dependencies, d ∈ p.steps.map (·.id)) →
      p.validate = []) ∧
    ((p.steps.map (·.id)).Nodup → ∀ a b, a ≠ b → DepPath p a b →
      DepPath p b a →
      (∃ n, cycleMsg n ∈ p.validate) ∧
      (∀ c, ReachableCompleted p c → ∀ s ∈ p.get_executable_steps c,
        ¬(DepPath p a s.id ∧ DepPath p s.id a))) := by
  constructor
  · exact fun h1 h2 => validate_nil_of_acyclic p h1 h2
  · intro hnd a b _ hab hba
    constructor
    · apply validate_has_cycle_error p a
      exact Relation.TransGen.mono (depEdge_gEdge p hnd)
        (Relation.TransGen.trans hab hba)
    · rintro c hc s hs ⟨has, hsa⟩
      have hcyc : DepPath p s.id s.id := Relation.TransGen.trans hsa has
      obtain ⟨d, hdc, hdcyc⟩ := executable_cycle_dep p hnd c s hs hcyc
      exact reachable_no_cycle p hnd c hc d hdc hdcyc

theorem c5_validate_cycles_witness :
    plan1.validate = [] ∧
    (∃ n, cycleMsg n ∈ planCyc.validate) ∧
    (∀ c, ReachableCompleted planCyc c →
      ∀ s ∈ planCyc.get_executable_steps c,
        ¬(DepPath planCyc "A" s.id ∧ DepPath planCyc s.id "A")) := by
  have hnoedge : ∀ x y, ¬ DepEdge plan1 x y := by
    rintro x y ⟨s, hs, -, hdep⟩
    simp only [plan1, List.mem_singleton] at hs
    subst hs
    simp at hdep
  have hacyc : ∀ x, ¬ DepPath plan1 x x := by
    intro x h
    cases h with
    | single h => exact hnoedge _ _ h
    | tail _ he => exact hnoedge _ _ he
  have hA : DepEdge planCyc "A" "B" :=
    ⟨⟨"A", "a", "dA", [], ["B"]⟩, by simp [planCyc], rfl, by simp⟩
  have hB : DepEdge planCyc "B" "A" :=
    ⟨⟨"B", "b", "dB", [], ["A"]⟩, by simp [planCyc], rfl, by simp⟩
  have h2 := (c5_validate_cycles planCyc).2 (by decide) "A" "B" (by decide)
    (Relation.TransGen.single hA) (Relation.TransGen.single hB)
  refine ⟨?_, h2.1, h2.2⟩
  apply (c5_validate_cycles plan1).1 hacyc
  intro s hs d hd
  simp only [plan1, List.mem_singleton] at hs
  subst hs
  simp at hd

/-- C6: for every acyclic plan with closed dependency references, the
driver loop that starts from the empty completed set and repeatedly
marks every step returned by `get_executable_steps` completed covers all
step ids within `p.steps.length` rounds (termination); no step is ever
returned before all of its dependencies are in the completed set; and
the returned steps appear in original plan order (the returned list is
always a sublist of `p.steps`). -/
theorem c6_acyclic_plan_execution (p : Plan)
    (hacyc : ∀ a, ¬ DepPath p a a)
    (hclosed : ∀ s ∈ p.steps, ∀ d ∈ s.dependencies, d ∈ stepIdsF p) :
    stepIdsF p ⊆ (completeAll p)^[p.steps.length] ∅ ∧
    (∀ (c : Finset String) (s : PlanStep), s ∈ p.get_executable_steps c →
      ∀ d ∈ s.dependencies, d ∈ c) ∧
    (∀ c : Finset String, (p.get_executable_steps c).Sublist p.steps) := by
  refine ⟨?_, ?_, ?_⟩
  · apply completeAll_iterate_covers p hacyc hclosed
    calc (stepIdsF p \ ∅).card = (stepIdsF p).card := by simp
    _ ≤ (p.steps.map (·.id)).length := List.toFinset_card_le _
    _ = p.steps.length := List.length_map _ _
  · intro c s hs
    exact (mem_get_executable_steps p c s hs).2.2
  · intro c
    exact List.filter_sublist p.steps

theorem c6_acyclic_plan_execution_witness :
    stepIdsF plan1 ⊆ (completeAll plan1)^[plan1.steps.length] ∅ ∧
    (∀ (c : Finset String) (s : PlanStep),
      s ∈ plan1.get_executable_steps c → ∀ d ∈ s.dependencies, d ∈ c) ∧
    (∀ c : Finset String, (plan1.get_executable_steps c).Sublist
      plan1.steps) := by
  have hnoedge : ∀ a b, ¬ DepEdge plan1 a b := by
    rintro a b ⟨s, hs, -, hdep⟩
    simp only [plan1, List.mem_singleton] at hs
    subst hs
    simp at hdep
  refine c6_acyclic_plan_execution plan1 ?_ ?_
  · intro a h
    cases h with
    | single h => exact hnoedge _ _ h
    | tail hp he => exact hnoedge _ _ he
  · intro s hs d hd
    simp only [plan1, List.mem_singleton] at hs
    subst hs
    simp at hd

theorem c1_chat_fallback_no_raise_witness :
    ∃ resp s', ResumeSession.chat ⟨none, fun _ => .error "down"⟩ "t1"
        sampleSession "hi" = (.ok resp, s') ∧
      resp ≠ "" ∧ (∃ tail, resp = "Error: " ++ tail) ∧
      s'.memory.turns = sampleSession.memory.turns ++
        [⟨"user", "hi", "t1", []⟩, ⟨"assistant", resp, "t1", []⟩] :=
  (c1_chat_fallback_no_raise (fun _ => .error "down") "t1" sampleSession
    "hi").2 (fun _ => ⟨"down", rfl⟩)

end Hired
